import Mathlib

/-!
Verification of the sitemap assembly engine of `sitemap.py`
(python-sitemap-generator).

The Python program is shallowly embedded: its pure data flow is translated
into executable Lean definitions, filesystem and clock effects are made
explicit (file contents arrive as input records, `datetime.now()` becomes a
clock argument consulted once per call site, `unlink` becomes an oracle for
whether a deletion succeeds), and exceptions become `Except`.
-/

set_option maxHeartbeats 1000000

/-- An HTML element found by the parser: its tag name and attribute list.
Models what `BeautifulSoup.find_all` hands back to `scan_html_files`. -/
structure HtmlTag where
  name : String
  attrs : List (String × String)
deriving DecidableEq, Repr

/-- Attribute lookup, modelling `tag.get(key)`: `none` when the attribute is
absent. -/
def tagGet (t : HtmlTag) (key : String) : Option String :=
  (t.attrs.find? (fun a => a.1 == key)).map (fun a => a.2)

/-- An XML element as built by `xml.etree.ElementTree`: tag, attributes,
text, children. -/
inductive XmlElem : Type where
  | mk : String → List (String × String) → String → List XmlElem → XmlElem

/-- Tag name of an XML element. -/
def elemTag : XmlElem → String
  | .mk t _ _ _ => t

/-- Attribute list of an XML element. -/
def elemAttrs : XmlElem → List (String × String)
  | .mk _ a _ _ => a

/-- Text content of an XML element. -/
def elemText : XmlElem → String
  | .mk _ _ s _ => s

/-- Child list of an XML element. -/
def elemChildren : XmlElem → List XmlElem
  | .mk _ _ _ c => c

/-- Split a character list at the first scheme separator `://`: the part
before it and the part after it, or `none` when absent. -/
def splitSchemeAux : List Char → Option (List Char × List Char)
  | ':' :: '/' :: '/' :: rest => some ([], rest)
  | c :: cs => (splitSchemeAux cs).map (fun p => (c :: p.1, p.2))
  | [] => none

/-- Everything through the last slash of a URL/path string. -/
def baseDir (s : String) : String :=
  String.mk ((s.toList.reverse.dropWhile (fun c => c != '/')).reverse)

/-- Model of `urllib.parse.urljoin` restricted to the shapes this program
feeds it: an absolute URL (one containing a scheme separator) is returned
unchanged, an empty relative reference returns the base, and any other
relative path replaces everything after the last slash of the base. -/
def urljoin (base rel : String) : String :=
  if rel = "" then base
  else if (splitSchemeAux rel.toList).isSome then rel
  else baseDir base ++ rel

/-- Scheme component of `urllib.parse.urlparse` for an absolute URL. -/
def urlScheme (s : String) : String :=
  match splitSchemeAux s.toList with
  | some p => String.mk p.1
  | none => s

/-- Netloc (host) component of `urllib.parse.urlparse` for an absolute URL. -/
def urlNetloc (s : String) : String :=
  match splitSchemeAux s.toList with
  | some p => String.mk (p.2.takeWhile (fun c => c != '/'))
  | none => ""

/-- The string `f"{scheme}://{netloc}/"` that `generate_sitemap_parts` and
`generate_sitemap_index` rebuild from the site base URL (dropping any path
component of the base URL). -/
def sitemapBaseUrl (s : String) : String :=
  urlScheme s ++ "://" ++ urlNetloc s ++ "/"

/-- Last path component, modelling `pathlib.Path(s).name`. -/
def pathName (s : String) : String :=
  String.mk ((s.toList.reverse.takeWhile (fun c => c != '/')).reverse)

/-- File extension including the dot, modelling `pathlib.Path(s).suffix`:
the last dot of the file name and everything after it, provided that dot is
neither the first nor the last character of the name. -/
def pathSuffix (s : String) : String :=
  let n := (pathName s).toList
  let after := (n.reverse.takeWhile (fun c => c != '.')).reverse
  if (n.drop 1).contains '.' && !after.isEmpty then String.mk ('.' :: after)
  else ""

/-- The suffix test of the scan loop: `file_path.suffix.lower()` is in
`{'.htm', '.html'}`. -/
def htmlSuffix (s : String) : Bool :=
  let suf := String.mk ((pathSuffix s).toList.map Char.toLower)
  suf == ".htm" || suf == ".html"

/-- The `img` extraction loop of `scan_html_files`: for every `img` tag with
a present, non-empty `src`, resolve it against the page URL and add it to the
page's image set (modelled as an insertion-ordered duplicate-free list). -/
def extractImages (page_url : String) (tags : List HtmlTag) : List String :=
  tags.foldl
    (fun acc t =>
      if t.name = "img" then
        match tagGet t "src" with
        | none => acc
        | some src =>
          if src = "" then acc
          else
            let u := urljoin page_url src
            if u ∈ acc then acc else acc ++ [u]
      else acc) []

/-- One page's stored data: `(lastmod_date, image_urls)`. -/
abbrev PageEntry := String × List String

/-- The `page_data` dict: page URL to page entry, in insertion order. -/
abbrev PageData := List (String × PageEntry)

/-- Assignment `page_data[page_url] = value` on the dict model: an existing
key keeps its position and gets the new value, a new key is appended. -/
def dictInsert (acc : PageData) (k : String) (v : PageEntry) : PageData :=
  if acc.any (fun p => p.1 == k) then
    acc.map (fun p => if p.1 = k then (k, v) else p)
  else acc ++ [(k, v)]

/-- One filesystem entry seen by the recursive walk of `scan_html_files`:
its path relative to the site root (posix form), the formatted filesystem
mtime, and the result of opening and reading it — an exception message, or
the parsed tag list (decoding errors never occur here because the file is
opened with `errors="ignore"`). -/
structure HtmlFile where
  relPath : String
  lastmod : String
  content : Except String (List HtmlTag)
deriving Repr

/-- The scan loop of `scan_html_files`. Opening a file whose `content` is an
error re-raises that exception: the `Except` value propagates immediately and
the remaining files are never reached, exactly as the Python loop, which has
no try/except, would abort. -/
def scanAux (site_base_url : String) :
    List HtmlFile → Nat → PageData → Except String (Nat × PageData)
  | [], n, acc => .ok (n, acc)
  | f :: rest, n, acc =>
    if htmlSuffix f.relPath then
      match f.content with
      | .error e => .error e
      | .ok tags =>
        let page_url := urljoin site_base_url f.relPath
        let imgs := extractImages page_url tags
        scanAux site_base_url rest (n + 1) (dictInsert acc page_url (f.lastmod, imgs))
    else scanAux site_base_url rest n acc

/-- Embedding of `scan_html_files`: returns the HTML file count and the
`page_data` dict, or the first exception raised while reading a file. -/
def scan_html_files (site_base_url : String) (files : List HtmlFile) :
    Except String (Nat × PageData) :=
  scanAux site_base_url files 0 []

/-- Non-strict lexicographic comparison of character lists by code point,
the order Python's `sorted` uses on strings. -/
def lexLe : List Char → List Char → Bool
  | [], _ => true
  | _ :: _, [] => false
  | a :: as, b :: bs =>
    if a.toNat < b.toNat then true
    else if b.toNat < a.toNat then false
    else lexLe as bs

/-- Strict lexicographic comparison of character lists by code point. -/
def lexLt : List Char → List Char → Bool
  | _, [] => false
  | [], _ :: _ => true
  | a :: as, b :: bs =>
    if a.toNat < b.toNat then true
    else if b.toNat < a.toNat then false
    else lexLt as bs

/-- Python's `<=` on strings: lexicographic by code point. -/
def strLe (a b : String) : Bool :=
  lexLe a.toList b.toList

/-- Python's `<` on strings: lexicographic by code point. -/
def strLt (a b : String) : Bool :=
  lexLt a.toList b.toList

/-- Python's `sorted` on the page's image set: ascending lexicographic
order of the code points. -/
def sortedImages (l : List String) : List String :=
  l.insertionSort (fun a b => strLe a b = true)

/-- The inner image loop of `generate_sitemap_parts`: walk the sorted image
URLs, skip any already in `image_seen`, emit the rest and add them to
`image_seen`. Returns the emitted list and the updated `image_seen`. -/
def claimImages : List String → List String → List String × List String
  | [], seen => ([], seen)
  | u :: rest, seen =>
    if u ∈ seen then claimImages rest seen
    else
      let r := claimImages rest (u :: seen)
      (u :: r.1, r.2)

/-- The per-part page loop stripped to its data: for each page, in order,
claim its sorted images against `image_seen`; collect
`(page_url, lastmod, emitted images)` triples and thread `image_seen`. -/
def emitPlan : PageData → List String → List (String × String × List String) × List String
  | [], seen => ([], seen)
  | (pu, e) :: rest, seen =>
    let c := claimImages (sortedImages e.2) seen
    let r := emitPlan rest c.2
    ((pu, e.1, c.1) :: r.1, r.2)

/-- The `url` element built for one page: `loc`, `lastmod`, fixed
`changefreq` `weekly`, fixed `priority` `0.5`, then one `image:image` child
per emitted image URL. -/
def mkUrlElem (page_url lastmod : String) (emitted : List String) : XmlElem :=
  .mk "url" [] ""
    ([.mk "loc" [] page_url [],
      .mk "lastmod" [] lastmod [],
      .mk "changefreq" [] "weekly" [],
      .mk "priority" [] "0.5" []] ++
      emitted.map (fun u => .mk "image:image" [] "" [.mk "image:loc" [] u []]))

/-- Build the `url` element from one `emitPlan` triple. -/
def mkEntry (x : String × String × List String) : XmlElem :=
  mkUrlElem x.1 x.2.1 x.2.2

/-- The attribute list of every part's `urlset` root element. -/
def urlsetAttrs : List (String × String) :=
  [("xmlns", "http://www.sitemaps.org/schemas/sitemap/0.9"),
   ("xmlns:image", "http://www.google.com/schemas/sitemap-image/1.1")]

/-- `num_parts = math.ceil(num_urls / split_limit) if split_limit > 0 else 1`. -/
def numParts (num_urls split_limit : Nat) : Nat :=
  if 0 < split_limit then (num_urls + split_limit - 1) / split_limit else 1

/-- Result of `generate_sitemap_parts`: the part URLs it returns, the part
documents it writes, and the final `image_seen` set. -/
structure PartsResult where
  partFiles : List String
  docs : List XmlElem
  imageSeen : List String

/-- The `for part_num in range(num_parts)` loop: part `i` slices
`urls[i*split_limit : min(i*split_limit + split_limit, len(urls))]`, names
its file `pfx-(i+1).xml`, resolves its URL against the rebuilt
scheme-and-host base, and emits one `urlset` document, threading
`image_seen` into the next part. -/
def genPartsAux (urls : PageData) (split_limit : Nat) (base pfx : String) :
    Nat → Nat → List String → PartsResult
  | _, 0, seen => ⟨[], [], seen⟩
  | i, k + 1, seen =>
    let part_start := i * split_limit
    let part_end := min (part_start + split_limit) urls.length
    let part_urls := (urls.drop part_start).take (part_end - part_start)
    let fname := pfx ++ "-" ++ toString (i + 1) ++ ".xml"
    let part_url := base ++ fname
    let plan := emitPlan part_urls seen
    let doc := XmlElem.mk "urlset" urlsetAttrs "" (plan.1.map mkEntry)
    let rest := genPartsAux urls split_limit base pfx (i + 1) k plan.2
    ⟨part_url :: rest.partFiles, doc :: rest.docs, rest.imageSeen⟩

/-- The part-file prefix: `'sitemap'` when the output stem is the default
`'sitemap_index'`, otherwise the stem itself. -/
def partPfxOf (output_stem : String) : String :=
  if output_stem = "sitemap_index" then "sitemap" else output_stem

/-- Embedding of `generate_sitemap_parts` (file writes abstracted into the
returned documents; `image_seen` starts empty and is threaded through all
parts, never reset). -/
def generate_sitemap_parts (page_data : PageData) (site_base_url : String)
    (split_limit : Nat) (pfx : String) : PartsResult :=
  genPartsAux page_data split_limit (sitemapBaseUrl site_base_url) pfx 0
    (numParts page_data.length split_limit) []

/-- Embedding of `generate_sitemap_index`. The Python loop calls
`datetime.datetime.now(datetime.UTC)` afresh for every `sitemap` entry; the
`clock` argument gives the formatted result of the i-th such call. -/
def generate_sitemap_index (part_files : List String) (clock : Nat → String) : XmlElem :=
  .mk "sitemapindex" [("xmlns", "http://www.sitemaps.org/schemas/sitemap/0.9")] ""
    (part_files.enum.map (fun p =>
      XmlElem.mk "sitemap" [] ""
        [.mk "loc" [] p.2 [], .mk "lastmod" [] (clock p.1) []]))

/-- Strip an exact character-list prefix: `some rest` when `cs = p ++ rest`. -/
def stripExact : List Char → List Char → Option (List Char)
  | [], cs => some cs
  | _ :: _, [] => none
  | p :: ps, c :: cs => if c = p then stripExact ps cs else none

/-- Check that a character list is `ds ++ ".xml"` for a non-empty digit
string `ds`: the tail of the regex `^...-\d+\.xml$`. -/
def checkDigitsXml (cs : List Char) : Bool :=
  decide (0 < (cs.takeWhile Char.isDigit).length) &&
    (cs.dropWhile Char.isDigit == ".xml".toList)

/-- The compiled pattern `^{re.escape(pfx)}-\d+\.xml$` of
`cleanup_old_parts`, applied to a file name. -/
def matchesPartPattern (pfx name : String) : Bool :=
  match stripExact (pfx.toList ++ ['-']) name.toList with
  | none => false
  | some rest => checkDigitsXml rest

/-- The glob prefilter `f"{pfx}-*.xml"` of `cleanup_old_parts`. -/
def globPartXml (pfx name : String) : Bool :=
  match stripExact (pfx.toList ++ ['-']) name.toList with
  | none => false
  | some rest => ".xml".toList.isSuffixOf rest

/-- Embedding of `cleanup_old_parts`: `dirFiles` is the directory listing,
`unlinkOk` tells whether deleting a given file succeeds (a failed `unlink`
raises, is caught, and the loop continues). Returns the list of files the
loop attempts to delete, in order, and the number actually removed. -/
def cleanup_old_parts (dirFiles : List String) (pfx : String)
    (part_files_current : List String) (unlinkOk : String → Bool) :
    List String × Nat :=
  let current_filenames := part_files_current.map pathName
  let existing_files := dirFiles.filter (fun n => globPartXml pfx n)
  let attempted := existing_files.filter
    (fun n => matchesPartPattern pfx n && !(current_filenames.contains n))
  (attempted, (attempted.filter unlinkOk).length)

/-- Serialization of an attribute list. -/
def renderAttrs (attrs : List (String × String)) : String :=
  (attrs.map (fun a => " " ++ a.1 ++ "=\x22" ++ a.2 ++ "\x22")).foldl (· ++ ·) ""

mutual

/-- Deterministic serialization of an XML element, standing in for
`ElementTree.write` (which is itself a pure function of the tree). -/
def renderElem : XmlElem → String
  | .mk t attrs txt ch =>
    "<" ++ t ++ renderAttrs attrs ++ ">" ++ txt ++ renderList ch ++ "</" ++ t ++ ">"

/-- Serialization of a child list, in order. -/
def renderList : List XmlElem → String
  | [] => ""
  | e :: es => renderElem e ++ renderList es

end

/-- One whole run after scanning: `generate_sitemap_parts` followed by
`generate_sitemap_index` on its part list, as `main` sequences them. -/
def runModel (page_data : PageData) (site_base_url : String)
    (split_limit : Nat) (output_stem : String) (clock : Nat → String) :
    PartsResult × XmlElem :=
  let pr := generate_sitemap_parts page_data site_base_url split_limit (partPfxOf output_stem)
  (pr, generate_sitemap_index pr.partFiles clock)

/-- Text of the first child with the given tag, or empty. -/
def childText (t : String) (e : XmlElem) : String :=
  match (elemChildren e).find? (fun c => elemTag c == t) with
  | some c => elemText c
  | none => ""

/-- The page location recorded in a `url` entry. -/
def urlEntryLoc (e : XmlElem) : String :=
  childText "loc" e

/-- The image URLs emitted under one `url` entry. -/
def urlEntryImages (e : XmlElem) : List String :=
  ((elemChildren e).filter (fun c => elemTag c == "image:image")).map (childText "image:loc")

/-- All `url` entries of a list of part documents, in emission order. -/
def allEntries (docs : List XmlElem) : List XmlElem :=
  docs.flatMap elemChildren

/-- The `(page location, image URL)` pairs of one entry. -/
def entryPairs (e : XmlElem) : List (String × String) :=
  (urlEntryImages e).map (fun u => (urlEntryLoc e, u))

/-- All `(page location, image URL)` pairs across all parts of a run. -/
def docsPairs (docs : List XmlElem) : List (String × String) :=
  (allEntries docs).flatMap entryPairs

/-- The `loc` texts of an index document, in order. -/
def indexLocs (idx : XmlElem) : List String :=
  (elemChildren idx).map (childText "loc")

/-- The `lastmod` texts of an index document, in order. -/
def indexLastmods (idx : XmlElem) : List String :=
  (elemChildren idx).map (childText "lastmod")

/-- The `(page url, image url)` pairs of an emission plan. -/
def planPairs (plan : List (String × String × List String)) : List (String × String) :=
  plan.flatMap (fun x => x.2.2.map (fun u => (x.1, u)))

theorem claimImages_seen_mem (imgs : List String) :
    ∀ (seen : List String) (u : String),
      u ∈ (claimImages imgs seen).2 ↔ u ∈ imgs ∨ u ∈ seen := by
  induction imgs with
  | nil => simp [claimImages]
  | cons v rest ih =>
    intro seen u
    by_cases hv : v ∈ seen
    · rw [claimImages, if_pos hv, ih]
      simp only [List.mem_cons]
      constructor
      · tauto
      · rintro ((rfl | h) | h) <;> tauto
    · rw [claimImages, if_neg hv]
      simp only [ih, List.mem_cons]
      tauto

theorem claimImages_count (imgs : List String) :
    ∀ (seen : List String) (u : String),
      (claimImages imgs seen).1.count u =
        if u ∈ seen then 0 else if u ∈ imgs then 1 else 0 := by
  induction imgs with
  | nil =>
    intro seen u
    simp [claimImages]
  | cons v rest ih =>
    intro seen u
    by_cases hv : v ∈ seen
    · rw [claimImages, if_pos hv, ih]
      by_cases hus : u ∈ seen
      · simp [hus]
      · have huv : u ≠ v := fun h => hus (h ▸ hv)
        simp [hus, List.mem_cons, huv]
    · rw [claimImages, if_neg hv]
      by_cases huv : u = v
      · subst huv
        simp only [List.count_cons, ih, List.mem_cons]
        simp [hv]
      · simp only [List.count_cons, ih, List.mem_cons]
        simp [huv, Ne.symm huv]

theorem claimImages_mem (imgs seen : List String) (u : String) :
    u ∈ (claimImages imgs seen).1 ↔ u ∈ imgs ∧ u ∉ seen := by
  rw [← List.count_pos_iff, claimImages_count]
  by_cases hus : u ∈ seen
  · simp [hus]
  · by_cases hui : u ∈ imgs <;> simp [hus, hui]

theorem claimImages_sublist (imgs : List String) :
    ∀ seen : List String, List.Sublist (claimImages imgs seen).1 imgs := by
  induction imgs with
  | nil => intro seen; simp [claimImages]
  | cons v rest ih =>
    intro seen
    rw [claimImages]
    by_cases hv : v ∈ seen
    · rw [if_pos hv]
      exact (ih seen).trans (List.sublist_cons_self v rest)
    · rw [if_neg hv]
      exact (ih (v :: seen)).cons₂ v

theorem claimImages_nodup (imgs seen : List String) :
    (claimImages imgs seen).1.Nodup := by
  rw [List.nodup_iff_count_le_one]
  intro u
  rw [claimImages_count]
  split <;> [omega; skip]
  split <;> omega

theorem char_eq_of_toNat_eq {a b : Char} (h : a.toNat = b.toNat) : a = b :=
  Char.eq_of_val_eq (UInt32.eq_of_val_eq (Fin.ext h))

theorem lexLe_cons_iff (a b : Char) (as bs : List Char) :
    lexLe (a :: as) (b :: bs) = true ↔
      a.toNat < b.toNat ∨ (a.toNat = b.toNat ∧ lexLe as bs = true) := by
  rw [lexLe]
  by_cases h1 : a.toNat < b.toNat
  · simp [h1]
  · by_cases h2 : b.toNat < a.toNat
    · simp only [if_neg h1, if_pos h2]
      constructor
      · intro hcon
        exact absurd hcon (by simp)
      · rintro (hc | ⟨hc, _⟩) <;> omega
    · simp only [if_neg h1, if_neg h2]
      have he : a.toNat = b.toNat := by omega
      simp [h1, he]

theorem lexLt_cons_iff (a b : Char) (as bs : List Char) :
    lexLt (a :: as) (b :: bs) = true ↔
      a.toNat < b.toNat ∨ (a.toNat = b.toNat ∧ lexLt as bs = true) := by
  rw [lexLt]
  by_cases h1 : a.toNat < b.toNat
  · simp [h1]
  · by_cases h2 : b.toNat < a.toNat
    · simp only [if_neg h1, if_pos h2]
      constructor
      · intro hcon
        exact absurd hcon (by simp)
      · rintro (hc | ⟨hc, _⟩) <;> omega
    · simp only [if_neg h1, if_neg h2]
      have he : a.toNat = b.toNat := by omega
      simp [h1, he]

theorem lexLe_total : ∀ as bs : List Char, lexLe as bs = true ∨ lexLe bs as = true := by
  intro as
  induction as with
  | nil => intro bs; left; rfl
  | cons a as ih =>
    intro bs
    cases bs with
    | nil => right; rfl
    | cons b bs =>
      rw [lexLe_cons_iff, lexLe_cons_iff]
      rcases Nat.lt_trichotomy a.toNat b.toNat with h | h | h
      · exact Or.inl (Or.inl h)
      · rcases ih bs with ht | ht
        · exact Or.inl (Or.inr ⟨h, ht⟩)
        · exact Or.inr (Or.inr ⟨h.symm, ht⟩)
      · exact Or.inr (Or.inl h)

theorem lexLe_trans : ∀ as bs cs : List Char,
    lexLe as bs = true → lexLe bs cs = true → lexLe as cs = true := by
  intro as
  induction as with
  | nil => intro bs cs _ _; rfl
  | cons a as ih =>
    intro bs cs h1 h2
    cases bs with
    | nil => rw [lexLe] at h1; exact absurd h1 (by simp)
    | cons b bs =>
      cases cs with
      | nil => rw [lexLe] at h2; exact absurd h2 (by simp)
      | cons c cs =>
        rw [lexLe_cons_iff] at h1 h2 ⊢
        rcases h1 with h1 | ⟨h1e, h1t⟩ <;> rcases h2 with h2 | ⟨h2e, h2t⟩
        · exact Or.inl (by omega)
        · exact Or.inl (by omega)
        · exact Or.inl (by omega)
        · exact Or.inr ⟨by omega, ih bs cs h1t h2t⟩

theorem lexLt_of_lexLe_ne : ∀ as bs : List Char,
    lexLe as bs = true → as ≠ bs → lexLt as bs = true := by
  intro as
  induction as with
  | nil =>
    intro bs h hne
    cases bs with
    | nil => exact absurd rfl hne
    | cons b bs => rfl
  | cons a as ih =>
    intro bs h hne
    cases bs with
    | nil => rw [lexLe] at h; exact absurd h (by simp)
    | cons b bs =>
      rw [lexLe_cons_iff] at h
      rw [lexLt_cons_iff]
      rcases h with h | ⟨he, ht⟩
      · exact Or.inl h
      · refine Or.inr ⟨he, ih bs ht ?_⟩
        intro hcon
        exact hne (by rw [char_eq_of_toNat_eq he, hcon])

theorem strLe_total (a b : String) : strLe a b = true ∨ strLe b a = true :=
  lexLe_total _ _

theorem strLe_trans (a b c : String) :
    strLe a b = true → strLe b c = true → strLe a c = true :=
  lexLe_trans _ _ _

theorem strLt_of_strLe_ne (a b : String) (h : strLe a b = true) (hne : a ≠ b) :
    strLt a b = true := by
  apply lexLt_of_lexLe_ne _ _ h
  intro hcon
  apply hne
  cases a with
  | mk da =>
    cases b with
    | mk db => exact congrArg String.mk hcon

theorem claimImages_sorted (imgs seen : List String) :
    List.Pairwise (fun a b => strLt a b = true) (claimImages (sortedImages imgs) seen).1 := by
  have hs : List.Pairwise (fun a b => strLe a b = true)
      (claimImages (sortedImages imgs) seen).1 :=
    (@List.sorted_insertionSort String (fun a b => strLe a b = true) _
        ⟨strLe_total⟩ ⟨strLe_trans⟩ imgs).sublist
      (claimImages_sublist _ seen)
  have hn : (claimImages (sortedImages imgs) seen).1.Nodup := claimImages_nodup _ seen
  exact (hs.and hn).imp (fun h => strLt_of_strLe_ne _ _ h.1 h.2)

theorem emitPlan_append (l1 l2 : PageData) (seen : List String) :
    emitPlan (l1 ++ l2) seen =
      ((emitPlan l1 seen).1 ++ (emitPlan l2 (emitPlan l1 seen).2).1,
        (emitPlan l2 (emitPlan l1 seen).2).2) := by
  induction l1 generalizing seen with
  | nil => simp [emitPlan]
  | cons p rest ih =>
    obtain ⟨pu, e⟩ := p
    simp [emitPlan, ih]

theorem emitPlan_length (pages : PageData) :
    ∀ seen : List String, (emitPlan pages seen).1.length = pages.length := by
  induction pages with
  | nil => intro seen; simp [emitPlan]
  | cons p rest ih =>
    intro seen
    obtain ⟨pu, e⟩ := p
    simp [emitPlan, ih]

theorem emitPlan_seen_mem (pages : PageData) :
    ∀ (seen : List String) (u : String),
      u ∈ (emitPlan pages seen).2 ↔ (∃ pd ∈ pages, u ∈ pd.2.2) ∨ u ∈ seen := by
  induction pages with
  | nil => intro seen u; simp [emitPlan]
  | cons p rest ih =>
    intro seen u
    obtain ⟨pu, e⟩ := p
    rw [emitPlan]
    simp only [ih, claimImages_seen_mem, sortedImages, List.mem_insertionSort,
      List.mem_cons]
    constructor
    · rintro (⟨pd, hpd, hu⟩ | h | h)
      · exact Or.inl ⟨pd, Or.inr hpd, hu⟩
      · exact Or.inl ⟨(pu, e), Or.inl rfl, h⟩
      · exact Or.inr h
    · rintro (⟨pd, rfl | hpd, hu⟩ | h)
      · tauto
      · exact Or.inl ⟨pd, hpd, hu⟩
      · tauto

theorem emitPlan_entry_sorted (pages : PageData) :
    ∀ (seen : List String) (x : String × String × List String),
      x ∈ (emitPlan pages seen).1 →
        List.Pairwise (fun a b => strLt a b = true) x.2.2 := by
  induction pages with
  | nil => intro seen x hx; simp [emitPlan] at hx
  | cons p rest ih =>
    intro seen x hx
    obtain ⟨pu, e⟩ := p
    rw [emitPlan] at hx
    simp only [List.mem_cons] at hx
    rcases hx with rfl | hx
    · exact claimImages_sorted e.2 seen
    · exact ih _ x hx

theorem emitPlan_pairs_filter (pages : PageData) :
    ∀ (seen : List String) (u : String),
      (planPairs (emitPlan pages seen).1).filter (fun q => q.2 == u) =
        if u ∈ seen then []
        else
          match pages.find? (fun pd => decide (u ∈ pd.2.2)) with
          | some pd => [(pd.1, u)]
          | none => [] := by
  induction pages with
  | nil =>
    intro seen u
    simp [emitPlan, planPairs]
  | cons p rest ih =>
    intro seen u
    obtain ⟨pu, e⟩ := p
    rw [emitPlan]
    simp only [planPairs, List.flatMap_cons, List.filter_append]
    rw [List.filter_map]
    have hcomp :
        ((fun q : String × String => q.2 == u) ∘ fun v => (pu, v)) = (fun v => v == u) := rfl
    rw [hcomp, List.filter_beq, claimImages_count]
    have hrest := ih (claimImages (sortedImages e.2) seen).2 u
    simp only [planPairs] at hrest
    rw [hrest]
    by_cases hus : u ∈ seen
    · have hseen2 : u ∈ (claimImages (sortedImages e.2) seen).2 :=
        (claimImages_seen_mem _ _ _).mpr (Or.inr hus)
      simp [hus, hseen2]
    · by_cases hue : u ∈ e.2
      · have hsor : u ∈ sortedImages e.2 := by
          simp [sortedImages, List.mem_insertionSort, hue]
        have hseen2 : u ∈ (claimImages (sortedImages e.2) seen).2 :=
          (claimImages_seen_mem _ _ _).mpr (Or.inl hsor)
        rw [List.find?_cons_of_pos]
        · simp [hus, hsor, hseen2]
        · simpa using hue
      · have hsor : u ∉ sortedImages e.2 := by
          simp [sortedImages, List.mem_insertionSort, hue]
        have hseen2 : ¬ u ∈ (claimImages (sortedImages e.2) seen).2 := by
          simp [claimImages_seen_mem, hsor, hus]
        rw [List.find?_cons_of_neg]
        · simp [hus, hsor, hseen2]
        · simpa using hue

theorem le_numParts_mul (L c : Nat) (hc : 0 < c) : L ≤ numParts L c * c := by
  rcases Nat.eq_zero_or_pos L with rfl | hL
  · exact Nat.zero_le _
  · have hrw : L + c - 1 = (L - 1) + c := by omega
    rw [numParts, if_pos hc, hrw, Nat.add_div_right _ hc]
    exact Nat.le_of_pred_lt ((Nat.div_lt_iff_lt_mul hc).mp (Nat.lt_succ_self _))

theorem numParts_pred_mul_lt (L c : Nat) (hc : 0 < c) (hL : 0 < L) :
    (numParts L c - 1) * c < L := by
  have hrw : L + c - 1 = (L - 1) + c := by omega
  rw [numParts, if_pos hc, hrw, Nat.add_div_right _ hc, Nat.add_sub_cancel]
  have h1 : (L - 1) / c * c ≤ L - 1 := Nat.div_mul_le_self _ _
  omega

theorem numParts_pos (L c : Nat) (hL : 0 < L) : 0 < numParts L c := by
  rcases Nat.eq_zero_or_pos c with rfl | hc
  · simp [numParts]
  · rw [numParts, if_pos hc]
    have hrw : L + c - 1 = (L - 1) + c := by omega
    rw [hrw, Nat.add_div_right _ hc]
    exact Nat.succ_pos _

theorem take_min_length {α : Type} (l : List α) (n : Nat) :
    l.take (min n l.length) = l.take n := by
  rcases Nat.le_total n l.length with h | h
  · rw [Nat.min_eq_left h]
  · rw [Nat.min_eq_right h, List.take_length, List.take_of_length_le h]

theorem slice_take (urls : PageData) (c i : Nat) :
    (urls.drop (i * c)).take (min (i * c + c) urls.length - i * c) =
      (urls.drop (i * c)).take c := by
  by_cases h : i * c ≤ urls.length
  · have hmin : min (i * c + c) urls.length - i * c = min c (urls.length - i * c) := by
      omega
    rw [hmin, ← List.length_drop, take_min_length]
  · have hd : urls.drop (i * c) = [] := List.drop_eq_nil_of_le (by omega)
    rw [hd]
    simp

theorem slice_split (urls : PageData) (c k i : Nat) :
    (urls.drop (i * c)).take ((k + 1) * c) =
      (urls.drop (i * c)).take c ++ (urls.drop ((i + 1) * c)).take (k * c) := by
  have h1 : (k + 1) * c = c + k * c := by ring
  rw [h1, List.take_add, List.drop_drop]
  have h2 : i * c + c = (i + 1) * c := by ring
  rw [h2]

theorem genPartsAux_partFiles (urls : PageData) (c : Nat) (base pfx : String) :
    ∀ (k i : Nat) (seen : List String),
      (genPartsAux urls c base pfx i k seen).partFiles =
        (List.range k).map (fun j => base ++ (pfx ++ "-" ++ toString (i + j + 1) ++ ".xml")) := by
  intro k
  induction k with
  | zero => intro i seen; simp [genPartsAux]
  | succ k ih =>
    intro i seen
    rw [genPartsAux, List.range_succ_eq_map, List.map_cons, List.map_map]
    simp only [List.cons.injEq]
    constructor
    · simp
    · rw [ih]
      apply List.map_congr_left
      intro j _
      simp only [Function.comp_apply]
      have harith : i + 1 + j + 1 = i + (j + 1) + 1 := by omega
      rw [harith]

theorem genPartsAux_entries_seen (urls : PageData) (c : Nat) (base pfx : String) :
    ∀ (k i : Nat) (seen : List String),
      allEntries (genPartsAux urls c base pfx i k seen).docs =
          (emitPlan ((urls.drop (i * c)).take (k * c)) seen).1.map mkEntry
        ∧ (genPartsAux urls c base pfx i k seen).imageSeen =
            (emitPlan ((urls.drop (i * c)).take (k * c)) seen).2 := by
  intro k
  induction k with
  | zero =>
    intro i seen
    simp [genPartsAux, allEntries, emitPlan]
  | succ k ih =>
    intro i seen
    rw [genPartsAux]
    simp only [slice_take]
    obtain ⟨ihe, ihs⟩ := ih (i + 1) ((emitPlan ((urls.drop (i * c)).take c) seen).2)
    rw [slice_split]
    rw [emitPlan_append]
    simp only [allEntries] at ihe
    constructor
    · simp only [allEntries, List.flatMap_cons, elemChildren, List.map_append]
      rw [ihe]
    · simpa using ihs

theorem genPartsAux_docLens (urls : PageData) (c : Nat) (base pfx : String) :
    ∀ (k i : Nat) (seen : List String),
      (genPartsAux urls c base pfx i k seen).docs.map (fun d => (elemChildren d).length) =
        (List.range k).map (fun j => min c (urls.length - (i + j) * c)) := by
  intro k
  induction k with
  | zero => intro i seen; simp [genPartsAux]
  | succ k ih =>
    intro i seen
    rw [genPartsAux, List.range_succ_eq_map]
    simp only [List.map_cons, List.map_map, slice_take, List.cons.injEq]
    constructor
    · simp only [elemChildren, List.length_map]
      rw [emitPlan_length, List.length_take, List.length_drop]
      simp [Nat.min_comm]
    · rw [ih]
      apply List.map_congr_left
      intro j _
      simp only [Function.comp_apply, Nat.succ_eq_add_one]
      have harith : (i + 1 + j) * c = (i + (j + 1)) * c := by ring
      rw [harith]

theorem genPartsAux_attrs (urls : PageData) (c : Nat) (base pfx : String) :
    ∀ (k i : Nat) (seen : List String) (d : XmlElem),
      d ∈ (genPartsAux urls c base pfx i k seen).docs → elemAttrs d = urlsetAttrs := by
  intro k
  induction k with
  | zero => intro i seen d hd; simp [genPartsAux] at hd
  | succ k ih =>
    intro i seen d hd
    rw [genPartsAux] at hd
    simp only [List.mem_cons] at hd
    rcases hd with rfl | hd
    · rfl
    · exact ih _ _ d hd

theorem filter_four_nil (p lm : String) :
    ([XmlElem.mk "loc" [] p [], XmlElem.mk "lastmod" [] lm [],
      XmlElem.mk "changefreq" [] "weekly" [], XmlElem.mk "priority" [] "0.5" []].filter
        (fun c => elemTag c == "image:image")) = [] := rfl

theorem filter_imgs (em : List String) :
    ((em.map (fun u => XmlElem.mk "image:image" [] "" [XmlElem.mk "image:loc" [] u []])).filter
        (fun c => elemTag c == "image:image")) =
      em.map (fun u => XmlElem.mk "image:image" [] "" [XmlElem.mk "image:loc" [] u []]) := by
  induction em with
  | nil => rfl
  | cons u rest ih =>
    simp only [List.map_cons]
    rw [List.filter_cons_of_pos (by rfl), ih]

theorem urlEntryLoc_mkEntry (x : String × String × List String) :
    urlEntryLoc (mkEntry x) = x.1 := rfl

theorem urlEntryImages_mkUrlElem (p lm : String) (em : List String) :
    urlEntryImages (mkUrlElem p lm em) = em := by
  simp only [urlEntryImages, mkUrlElem, elemChildren]
  rw [List.filter_append, filter_four_nil, filter_imgs, List.nil_append, List.map_map]
  have hfun : (childText "image:loc" ∘ fun u =>
      XmlElem.mk "image:image" [] "" [XmlElem.mk "image:loc" [] u []]) = id := by
    funext u
    rfl
  rw [hfun, List.map_id]

theorem urlEntryImages_mkEntry (x : String × String × List String) :
    urlEntryImages (mkEntry x) = x.2.2 :=
  urlEntryImages_mkUrlElem x.1 x.2.1 x.2.2

theorem genPartsAux_numFiles (urls : PageData) (c : Nat) (base pfx : String) :
    ∀ (k i : Nat) (seen : List String),
      (genPartsAux urls c base pfx i k seen).partFiles.length = k
        ∧ (genPartsAux urls c base pfx i k seen).docs.length = k := by
  intro k
  induction k with
  | zero => intro i seen; simp [genPartsAux]
  | succ k ih =>
    intro i seen
    obtain ⟨h1, h2⟩ := ih (i + 1) ((emitPlan ((urls.drop (i * c)).take
      (min (i * c + c) urls.length - i * c)) seen).2)
    rw [genPartsAux]
    simp only [List.length_cons]
    omega

theorem generate_parts_entries (pd : PageData) (base_url pfx : String) (c : Nat)
    (hc : 0 < c) :
    allEntries (generate_sitemap_parts pd base_url c pfx).docs = (emitPlan pd []).1.map mkEntry
      ∧ (generate_sitemap_parts pd base_url c pfx).imageSeen = (emitPlan pd []).2 := by
  obtain ⟨he, hs⟩ := genPartsAux_entries_seen pd c (sitemapBaseUrl base_url) pfx
    (numParts pd.length c) 0 []
  have htake : (pd.drop (0 * c)).take (numParts pd.length c * c) = pd := by
    rw [Nat.zero_mul, List.drop_zero]
    exact List.take_of_length_le (le_numParts_mul _ _ hc)
  rw [htake] at he hs
  exact ⟨he, hs⟩

theorem flatMap_congr {α β : Type} (l : List α) (f g : α → List β)
    (h : ∀ a ∈ l, f a = g a) : l.flatMap f = l.flatMap g := by
  induction l with
  | nil => rfl
  | cons a r ih =>
    simp only [List.flatMap_cons]
    rw [h a (by simp), ih (fun b hb => h b (by simp [hb]))]

theorem docsPairs_eq_planPairs (pd : PageData) (base_url pfx : String) (c : Nat)
    (hc : 0 < c) :
    docsPairs (generate_sitemap_parts pd base_url c pfx).docs = planPairs (emitPlan pd []).1 := by
  rw [docsPairs, (generate_parts_entries pd base_url pfx c hc).1]
  rw [List.flatMap_map, planPairs]
  apply flatMap_congr
  intro x _
  rw [entryPairs, urlEntryImages_mkEntry, urlEntryLoc_mkEntry]

/-- C1: every emitted image URL appears as a child of exactly one page entry
across all parts combined, namely under the first page, in processing order,
whose image set contains it; and the shared `image_seen` set returned by
`generate_sitemap_parts` holds exactly the URLs emitted somewhere — evidence
that one tracker spans all parts and is never reset. -/
theorem image_dedup_first_page (page_data : PageData) (site_base_url pfx : String)
    (split_limit : Nat) (hsl : 0 < split_limit) :
    (∀ p u : String,
        (p, u) ∈ docsPairs (generate_sitemap_parts page_data site_base_url split_limit pfx).docs →
          (docsPairs (generate_sitemap_parts page_data site_base_url split_limit pfx).docs).filter
              (fun q => q.2 == u) = [(p, u)]
            ∧ (page_data.find? (fun pd => decide (u ∈ pd.2.2))).map (fun pd => pd.1) = some p)
      ∧ ∀ u : String,
          u ∈ (generate_sitemap_parts page_data site_base_url split_limit pfx).imageSeen ↔
            ∃ p : String,
              (p, u) ∈ docsPairs (generate_sitemap_parts page_data site_base_url split_limit pfx).docs := by
  rw [docsPairs_eq_planPairs page_data site_base_url pfx split_limit hsl,
    (generate_parts_entries page_data site_base_url pfx split_limit hsl).2]
  constructor
  · intro p u hmem
    have hfil := emitPlan_pairs_filter page_data [] u
    rw [if_neg (List.not_mem_nil u)] at hfil
    have hin : (p, u) ∈ (planPairs (emitPlan page_data []).1).filter (fun q => q.2 == u) :=
      List.mem_filter.mpr ⟨hmem, by simp⟩
    rcases hfind : page_data.find? (fun pd => decide (u ∈ pd.2.2)) with _ | pd
    · rw [hfind] at hfil
      rw [hfil] at hin
      simp at hin
    · rw [hfind] at hfil
      rw [hfil] at hin
      have hp : p = pd.1 := by
        simp only [List.mem_singleton, Prod.mk.injEq] at hin
        exact hin.1
      subst hp
      exact ⟨hfil, by rw [hfind]; rfl⟩
  · intro u
    have hfil := emitPlan_pairs_filter page_data [] u
    rw [if_neg (List.not_mem_nil u)] at hfil
    rw [emitPlan_seen_mem]
    constructor
    · rintro (⟨pd, hpd, hu⟩ | hfalse)
      · have hsome : (page_data.find? (fun pd => decide (u ∈ pd.2.2))).isSome := by
          rw [List.find?_isSome]
          exact ⟨pd, hpd, by simpa using hu⟩
        rcases hfind : page_data.find? (fun pd => decide (u ∈ pd.2.2)) with _ | pd'
        · rw [hfind] at hsome
          simp at hsome
        · rw [hfind] at hfil
          refine ⟨pd'.1, ?_⟩
          have : (pd'.1, u) ∈ (planPairs (emitPlan page_data []).1).filter (fun q => q.2 == u) := by
            rw [hfil]
            simp
          exact (List.mem_filter.mp this).1
      · simp at hfalse
    · rintro ⟨p, hmem⟩
      have hin : (p, u) ∈ (planPairs (emitPlan page_data []).1).filter (fun q => q.2 == u) :=
        List.mem_filter.mpr ⟨hmem, by simp⟩
      rcases hfind : page_data.find? (fun pd => decide (u ∈ pd.2.2)) with _ | pd
      · rw [hfind] at hfil
        rw [hfil] at hin
        simp at hin
      · left
        have := List.find?_some hfind
        have hmem' := List.mem_of_find?_eq_some hfind
        exact ⟨pd, hmem', by simpa using this⟩

/-- Witness for the C1 theorem at a concrete two-page run with capacity 1:
the image `x` occurs on both pages but is emitted only under the first. -/
theorem image_dedup_first_page_witness :
    (0 : Nat) < 1
      ∧ (docsPairs (generate_sitemap_parts
            [("A", ("t", ["x"])), ("B", ("t", ["x", "y"]))] "https://e.com/" 1 "sitemap").docs).filter
          (fun q => q.2 == "x") = [("A", "x")]
      ∧ (([("A", ("t", ["x"])), ("B", ("t", ["x", "y"]))] : PageData).find?
          (fun pd => decide ("x" ∈ pd.2.2))).map (fun pd => pd.1) = some "A" := by
  have h := (image_dedup_first_page [("A", ("t", ["x"])), ("B", ("t", ["x", "y"]))]
    "https://e.com/" "sitemap" 1 Nat.one_pos).1 "A" "x" (by decide)
  exact ⟨Nat.one_pos, h.1, h.2⟩

theorem indexLocs_generate (fs : List String) (clock : Nat → String) :
    indexLocs (generate_sitemap_index fs clock) = fs := by
  simp only [indexLocs, generate_sitemap_index, elemChildren, List.map_map]
  have hfun : (childText "loc" ∘ fun p : Nat × String =>
      XmlElem.mk "sitemap" [] ""
        [XmlElem.mk "loc" [] p.2 [], XmlElem.mk "lastmod" [] (clock p.1) []]) = Prod.snd := by
    funext p
    rfl
  rw [hfun, List.enum_map_snd]

theorem indexLastmods_generate (fs : List String) (clock : Nat → String) :
    indexLastmods (generate_sitemap_index fs clock) = (List.range fs.length).map clock := by
  simp only [indexLastmods, generate_sitemap_index, elemChildren, List.map_map]
  have hfun : (childText "lastmod" ∘ fun p : Nat × String =>
      XmlElem.mk "sitemap" [] ""
        [XmlElem.mk "loc" [] p.2 [], XmlElem.mk "lastmod" [] (clock p.1) []]) =
      (fun p : Nat × String => clock p.1) := by
    funext p
    rfl
  rw [hfun]
  have h1 : (fun p : Nat × String => clock p.1) = clock ∘ Prod.fst := rfl
  rw [h1, ← List.map_map, List.enum_map_fst]

/-- C5, code bug: `generate_sitemap_index` recomputes `datetime.now` inside
the per-entry loop — the i-th entry's `lastmod` is the i-th clock reading —
so when the clock string advances between two entries the index carries two
different generation timestamps, contradicting the specified single shared
timestamp taken once at index-write time. -/
theorem index_lastmod_per_entry_clock :
    (∀ (fs : List String) (clock : Nat → String),
        indexLastmods (generate_sitemap_index fs clock) = (List.range fs.length).map clock)
      ∧ indexLastmods (generate_sitemap_index
            ["https://e.com/sitemap-1.xml", "https://e.com/sitemap-2.xml"]
            (fun i => if i = 0 then "2025-06-01T00:00:00+00:00" else "2025-06-01T00:00:01+00:00"))
          = ["2025-06-01T00:00:00+00:00", "2025-06-01T00:00:01+00:00"]
      ∧ ("2025-06-01T00:00:00+00:00" : String) ≠ "2025-06-01T00:00:01+00:00" := by
  refine ⟨indexLastmods_generate, rfl, by decide⟩

/-- C6 counterexample: with base URL `https://example.com/sub/` the recorded
part location is rebuilt from scheme and host only — the `/sub/` path
component is dropped — whereas joining the full base URL with the filename
would keep it. -/
theorem part_location_drops_base_path_cex :
    (generate_sitemap_parts [("https://example.com/sub/a.html", ("t", []))]
        "https://example.com/sub/" 1000 "sitemap").partFiles
      = ["https://example.com/sitemap-1.xml"]
    ∧ urljoin "https://example.com/sub/" "sitemap-1.xml"
        = "https://example.com/sub/sitemap-1.xml"
    ∧ ("https://example.com/sitemap-1.xml" : String)
        ≠ "https://example.com/sub/sitemap-1.xml" := by
  refine ⟨by decide, by decide, by decide⟩

/-- C6 as amended: every part location (returned by the part writer and
copied verbatim into the index's `loc` entries) equals the base URL's scheme
and host — `f"{scheme}://{netloc}/"` — concatenated with the part's
filename; any path component of the base URL is dropped. -/
theorem part_locations_scheme_host_only (page_data : PageData)
    (site_base_url pfx : String) (limit : Nat) (clock : Nat → String) :
    (generate_sitemap_parts page_data site_base_url limit pfx).partFiles =
        (List.range (numParts page_data.length limit)).map
          (fun j => sitemapBaseUrl site_base_url ++ (pfx ++ "-" ++ toString (j + 1) ++ ".xml"))
      ∧ indexLocs (generate_sitemap_index
            (generate_sitemap_parts page_data site_base_url limit pfx).partFiles clock) =
          (generate_sitemap_parts page_data site_base_url limit pfx).partFiles := by
  constructor
  · have h := genPartsAux_partFiles page_data limit (sitemapBaseUrl site_base_url) pfx
      (numParts page_data.length limit) 0 []
    simpa [generate_sitemap_parts] using h
  · exact indexLocs_generate _ _

/-- C9: a rerun over identical discovered input produces identical part
documents (also byte-identical once serialized), an identical part list and
an identical final image set, no matter how the two runs' clocks differ;
only the index's per-entry `lastmod` timestamps can depend on the clock —
its `loc` list is the same part list both times. -/
theorem rerun_parts_byte_identical (page_data : PageData) (site_base_url : String)
    (limit : Nat) (stem : String) (clock1 clock2 : Nat → String) :
    ((runModel page_data site_base_url limit stem clock1).1.docs.map renderElem =
        (runModel page_data site_base_url limit stem clock2).1.docs.map renderElem)
      ∧ (runModel page_data site_base_url limit stem clock1).1.partFiles =
          (runModel page_data site_base_url limit stem clock2).1.partFiles
      ∧ (runModel page_data site_base_url limit stem clock1).1.imageSeen =
          (runModel page_data site_base_url limit stem clock2).1.imageSeen
      ∧ indexLocs (runModel page_data site_base_url limit stem clock1).2 =
          indexLocs (runModel page_data site_base_url limit stem clock2).2 := by
  refine ⟨rfl, rfl, rfl, ?_⟩
  simp only [runModel]
  rw [indexLocs_generate, indexLocs_generate]

/-- C10: with `--split 0` the guard `if split_limit > 0 else 1` avoids the
division by zero and yields exactly one part; its slice
`urls[0:min(0, len(urls))]` is empty, so that single part contains zero page
entries no matter how many pages were discovered. -/
theorem split_zero_single_empty_part (page_data : PageData)
    (site_base_url pfx : String) :
    (generate_sitemap_parts page_data site_base_url 0 pfx).docs.length = 1
      ∧ (generate_sitemap_parts page_data site_base_url 0 pfx).partFiles =
          [sitemapBaseUrl site_base_url ++ (pfx ++ "-" ++ toString 1 ++ ".xml")]
      ∧ ∀ d ∈ (generate_sitemap_parts page_data site_base_url 0 pfx).docs,
          elemChildren d = [] := by
  refine ⟨?_, ?_, ?_⟩
  · simp [generate_sitemap_parts, numParts, genPartsAux]
  · simp [generate_sitemap_parts, numParts, genPartsAux]
  · intro d hd
    simp only [generate_sitemap_parts, numParts] at hd
    simp only [if_neg (lt_irrefl 0)] at hd
    simp [genPartsAux, emitPlan, List.mem_cons] at hd
    rcases hd with rfl
    rfl

theorem getD_map_range {β : Type} (g : Nat → β) (k j : Nat) (d : β) (h : j < k) :
    ((List.range k).map g).getD j d = g j := by
  rw [List.getD_eq_getElem?_getD, List.getElem?_map, List.getElem?_range h]
  rfl

theorem generate_parts_docLens (pd : PageData) (base pfx : String) (c : Nat) :
    (generate_sitemap_parts pd base c pfx).docs.map (fun d => (elemChildren d).length) =
      (List.range (numParts pd.length c)).map (fun j => min c (pd.length - j * c)) := by
  have h := genPartsAux_docLens pd c (sitemapBaseUrl base) pfx (numParts pd.length c) 0 []
  simpa [generate_sitemap_parts] using h

theorem generate_parts_counts (pd : PageData) (base pfx : String) (c : Nat) :
    (generate_sitemap_parts pd base c pfx).docs.length = numParts pd.length c
      ∧ (generate_sitemap_parts pd base c pfx).partFiles.length = numParts pd.length c := by
  have h := genPartsAux_numFiles pd c (sitemapBaseUrl base) pfx (numParts pd.length c) 0 []
  exact ⟨h.2, h.1⟩

/-- C2: with N ≥ 1 discovered pages and capacity C ≥ 1, the run produces
ceil(N/C) = (N + C - 1) / C part documents and part files; every part but
the last holds exactly C page entries, and the last holds
N - (ceil(N/C) - 1) * C. -/
theorem parts_partition_sizes (page_data : PageData) (site_base_url pfx : String)
    (C : Nat) (hN : 1 ≤ page_data.length) (hC : 1 ≤ C) :
    (generate_sitemap_parts page_data site_base_url C pfx).docs.length
        = (page_data.length + C - 1) / C
      ∧ (generate_sitemap_parts page_data site_base_url C pfx).partFiles.length
          = (page_data.length + C - 1) / C
      ∧ (∀ j : Nat, j + 1 < (page_data.length + C - 1) / C →
          ((generate_sitemap_parts page_data site_base_url C pfx).docs.map
              (fun d => (elemChildren d).length)).getD j 0 = C)
      ∧ ((generate_sitemap_parts page_data site_base_url C pfx).docs.map
            (fun d => (elemChildren d).length)).getD
              ((page_data.length + C - 1) / C - 1) 0
          = page_data.length - ((page_data.length + C - 1) / C - 1) * C := by
  have hC0 : 0 < C := hC
  have hL0 : 0 < page_data.length := hN
  have hnp : numParts page_data.length C = (page_data.length + C - 1) / C := by
    rw [numParts, if_pos hC0]
  have hcnt := generate_parts_counts page_data site_base_url pfx C
  have hlowlt := numParts_pred_mul_lt page_data.length C hC0 hL0
  have hup := le_numParts_mul page_data.length C hC0
  have hpos := numParts_pos page_data.length C hL0
  refine ⟨by rw [← hnp]; exact hcnt.1, by rw [← hnp]; exact hcnt.2, ?_, ?_⟩
  · intro j hj
    rw [← hnp] at hj
    rw [generate_parts_docLens, getD_map_range _ _ _ _ (by omega)]
    have h2 : (j + 1) * C ≤ (numParts page_data.length C - 1) * C :=
      Nat.mul_le_mul_right C (by omega)
    rw [Nat.succ_mul] at h2
    have h3 : C ≤ page_data.length - j * C := by omega
    rw [Nat.min_eq_left h3]
  · rw [← hnp]
    rw [generate_parts_docLens, getD_map_range _ _ _ _ (by omega)]
    have hk : numParts page_data.length C * C = (numParts page_data.length C - 1) * C + C := by
      rcases Nat.exists_eq_add_of_le hpos with ⟨m, hm⟩
      rw [hm]
      simp [Nat.succ_mul, Nat.add_comm 1 m, Nat.add_mul]
    have h4 : page_data.length - (numParts page_data.length C - 1) * C ≤ C := by omega
    rw [Nat.min_eq_right h4]

/-- Witness for C2 on a concrete run: 5 pages, capacity 2, giving 3 parts of
sizes 2, 2, 1. -/
theorem parts_partition_sizes_witness :
    (1 : Nat) ≤ 5 ∧ (1 : Nat) ≤ 2
      ∧ (generate_sitemap_parts
          [("p1", ("t", [])), ("p2", ("t", [])), ("p3", ("t", [])),
            ("p4", ("t", [])), ("p5", ("t", []))] "https://e.com/" 2 "sitemap").docs.length = 3
      ∧ ((generate_sitemap_parts
          [("p1", ("t", [])), ("p2", ("t", [])), ("p3", ("t", [])),
            ("p4", ("t", [])), ("p5", ("t", []))] "https://e.com/" 2 "sitemap").docs.map
            (fun d => (elemChildren d).length)).getD 0 0 = 2
      ∧ ((generate_sitemap_parts
          [("p1", ("t", [])), ("p2", ("t", [])), ("p3", ("t", [])),
            ("p4", ("t", [])), ("p5", ("t", []))] "https://e.com/" 2 "sitemap").docs.map
            (fun d => (elemChildren d).length)).getD 1 0 = 2
      ∧ ((generate_sitemap_parts
          [("p1", ("t", [])), ("p2", ("t", [])), ("p3", ("t", [])),
            ("p4", ("t", [])), ("p5", ("t", []))] "https://e.com/" 2 "sitemap").docs.map
            (fun d => (elemChildren d).length)).getD 2 0 = 1 := by
  have h := parts_partition_sizes
    [("p1", ("t", [])), ("p2", ("t", [])), ("p3", ("t", [])),
      ("p4", ("t", [])), ("p5", ("t", []))] "https://e.com/" "sitemap" 2
    (by decide) (by decide)
  refine ⟨by decide, by decide, by simpa using h.1, ?_, ?_, ?_⟩
  · simpa using h.2.2.1 0 (by decide)
  · simpa using h.2.2.1 1 (by decide)
  · simpa using h.2.2.2

theorem filter_video_four_nil (p lm : String) :
    ([XmlElem.mk "loc" [] p [], XmlElem.mk "lastmod" [] lm [],
      XmlElem.mk "changefreq" [] "weekly" [], XmlElem.mk "priority" [] "0.5" []].filter
        (fun c => elemTag c == "video:video")) = [] := rfl

theorem filter_video_imgs (em : List String) :
    ((em.map (fun u => XmlElem.mk "image:image" [] "" [XmlElem.mk "image:loc" [] u []])).filter
        (fun c => elemTag c == "video:video")) = [] := by
  induction em with
  | nil => rfl
  | cons u rest ih =>
    simp only [List.map_cons]
    rw [List.filter_cons_of_neg (by simp [elemTag]), ih]

theorem filter_video_mkUrlElem (p lm : String) (em : List String) :
    (elemChildren (mkUrlElem p lm em)).filter (fun c => elemTag c == "video:video") = [] := by
  simp only [mkUrlElem, elemChildren]
  rw [List.filter_append, filter_video_four_nil, filter_video_imgs, List.nil_append]

/-- C8: within every emitted page entry the image URLs appear in strictly
increasing lexicographic order of the resolved URL (so when several images
of one page compete, the lexicographically smallest is claimed first), while
the entry carries no video children at all — the code emits none, so the
videos-in-document-order clause holds vacuously. -/
theorem page_images_sorted_lexicographically (page_data : PageData)
    (site_base_url pfx : String) (split_limit : Nat) (hsl : 0 < split_limit) :
    ∀ e ∈ allEntries (generate_sitemap_parts page_data site_base_url split_limit pfx).docs,
      List.Pairwise (fun a b => strLt a b = true) (urlEntryImages e)
        ∧ (elemChildren e).filter (fun c => elemTag c == "video:video") = [] := by
  rw [(generate_parts_entries page_data site_base_url pfx split_limit hsl).1]
  intro e he
  rw [List.mem_map] at he
  obtain ⟨x, hx, rfl⟩ := he
  refine ⟨?_, ?_⟩
  · rw [urlEntryImages_mkEntry]
    exact emitPlan_entry_sorted page_data [] x hx
  · exact filter_video_mkUrlElem x.1 x.2.1 x.2.2

/-- Witness for C8: a page listing its images as `b, a, c` emits them as
`a, b, c`, strictly sorted, with no video children. -/
theorem page_images_sorted_lexicographically_witness :
    (0 : Nat) < 1
      ∧ urlEntryImages (mkUrlElem "A" "t" ["a", "b", "c"]) = ["a", "b", "c"]
      ∧ List.Pairwise (fun a b => strLt a b = true)
          (urlEntryImages (mkUrlElem "A" "t" ["a", "b", "c"]))
      ∧ (elemChildren (mkUrlElem "A" "t" ["a", "b", "c"])).filter
          (fun c => elemTag c == "video:video") = [] := by
  have hall : allEntries (generate_sitemap_parts [("A", ("t", ["b", "a", "c"]))]
      "https://e.com/" 1 "sitemap").docs = [mkUrlElem "A" "t" ["a", "b", "c"]] := rfl
  have h := page_images_sorted_lexicographically [("A", ("t", ["b", "a", "c"]))]
    "https://e.com/" "sitemap" 1 Nat.one_pos (mkUrlElem "A" "t" ["a", "b", "c"])
    (by rw [hall]; exact List.mem_singleton_self _)
  exact ⟨Nat.one_pos, by decide, h.1, h.2⟩

theorem scanAux_all_ok (base : String) :
    ∀ (files : List HtmlFile) (n : Nat) (acc : PageData),
      (∀ f ∈ files, htmlSuffix f.relPath = true → ∃ tags, f.content = .ok tags) →
        ∃ r, scanAux base files n acc = .ok r := by
  intro files
  induction files with
  | nil => intro n acc _; exact ⟨(n, acc), rfl⟩
  | cons f rest ih =>
    intro n acc h
    rw [scanAux]
    by_cases hs : htmlSuffix f.relPath = true
    · obtain ⟨tags, htags⟩ := h f (by simp) hs
      rw [if_pos hs, htags]
      exact ih _ _ (fun g hg => h g (by simp [hg]))
    · rw [if_neg hs]
      exact ih _ _ (fun g hg => h g (by simp [hg]))

theorem scanAux_error (base : String) (f : HtmlFile) (post : List HtmlFile) (e : String)
    (hf : htmlSuffix f.relPath = true) (he : f.content = .error e) :
    ∀ (pre : List HtmlFile) (n : Nat) (acc : PageData),
      (∀ g ∈ pre, htmlSuffix g.relPath = true → ∃ tags, g.content = .ok tags) →
        scanAux base (pre ++ f :: post) n acc = .error e := by
  intro pre
  induction pre with
  | nil =>
    intro n acc _
    rw [List.nil_append, scanAux, if_pos hf, he]
  | cons g rest ih =>
    intro n acc h
    rw [List.cons_append, scanAux]
    by_cases hs : htmlSuffix g.relPath = true
    · obtain ⟨tags, htags⟩ := h g (by simp) hs
      rw [if_pos hs, htags]
      exact ih _ _ (fun g' hg' => h g' (by simp [hg']))
    · rw [if_neg hs]
      exact ih _ _ (fun g' hg' => h g' (by simp [hg']))

/-- C3 counterexample: a run whose first HTML file raises on open returns
that exception — it never completes with a result, and the second,
perfectly readable file is never processed; nothing in `scan_html_files`
catches the error. -/
theorem scan_abort_on_open_error_cex :
    scan_html_files "https://e.com/"
        [⟨"a.html", "t1", .error "PermissionError"⟩, ⟨"b.html", "t2", .ok []⟩]
      = .error "PermissionError"
    ∧ ∀ r, scan_html_files "https://e.com/"
        [⟨"a.html", "t1", .error "PermissionError"⟩, ⟨"b.html", "t2", .ok []⟩] ≠ .ok r := by
  refine ⟨rfl, ?_⟩
  intro r h
  rw [show scan_html_files "https://e.com/"
      [⟨"a.html", "t1", .error "PermissionError"⟩, ⟨"b.html", "t2", .ok []⟩]
    = .error "PermissionError" from rfl] at h
  exact Except.noConfusion h

/-- C3 as amended: decoding problems cannot abort the scan (reading uses
`errors="ignore"`, so every readable file yields a tag list), and a run over
files that all open succeeds; but the first file that raises on open makes
the whole scan return that exception — the run aborts and later files are
not reached. -/
theorem scan_open_error_aborts_run (base : String) :
    (∀ files : List HtmlFile,
        (∀ f ∈ files, htmlSuffix f.relPath = true → ∃ tags, f.content = .ok tags) →
          ∃ r, scan_html_files base files = .ok r)
      ∧ ∀ (pre : List HtmlFile) (f : HtmlFile) (post : List HtmlFile) (e : String),
          (∀ g ∈ pre, htmlSuffix g.relPath = true → ∃ tags, g.content = .ok tags) →
          htmlSuffix f.relPath = true → f.content = .error e →
          scan_html_files base (pre ++ f :: post) = .error e := by
  constructor
  · intro files h
    exact scanAux_all_ok base files 0 [] h
  · intro pre f post e h hf he
    exact scanAux_error base f post e hf he pre 0 [] h

/-- Witness for the amended C3 at a concrete three-file input: the middle
file raises and the scan returns its error. -/
theorem scan_open_error_aborts_run_witness :
    scan_html_files "https://e.com/"
        [⟨"ok.html", "t", .ok []⟩, ⟨"bad.html", "t", .error "boom"⟩,
          ⟨"late.html", "t", .ok []⟩]
      = .error "boom" := by
  have h := (scan_open_error_aborts_run "https://e.com/").2
    [⟨"ok.html", "t", .ok []⟩] ⟨"bad.html", "t", .error "boom"⟩
    [⟨"late.html", "t", .ok []⟩] "boom"
    (by
      intro g hg _
      rcases List.mem_singleton.mp hg with rfl
      exact ⟨[], rfl⟩)
    (by decide) rfl
  simpa using h

theorem genPartsAux_docs_struct (urls : PageData) (c : Nat) (base pfx : String) :
    ∀ (k i : Nat) (seen : List String) (d : XmlElem),
      d ∈ (genPartsAux urls c base pfx i k seen).docs →
        ∃ plan : List (String × String × List String),
          d = XmlElem.mk "urlset" urlsetAttrs "" (plan.map mkEntry) := by
  intro k
  induction k with
  | zero => intro i seen d hd; simp [genPartsAux] at hd
  | succ k ih =>
    intro i seen d hd
    rw [genPartsAux] at hd
    simp only [List.mem_cons] at hd
    rcases hd with rfl | hd
    · exact ⟨_, rfl⟩
    · exact ih _ _ d hd

theorem entry_children_tags (p lm : String) (em : List String) :
    ∀ ch ∈ elemChildren (mkUrlElem p lm em),
      elemTag ch ∈ (["loc", "lastmod", "changefreq", "priority", "image:image"] : List String) := by
  intro ch hch
  simp only [mkUrlElem, elemChildren] at hch
  rcases List.mem_append.mp hch with h4 | hm
  · simp only [List.mem_cons, List.not_mem_nil, or_false] at h4
    rcases h4 with rfl | rfl | rfl | rfl <;> simp [elemTag]
  · obtain ⟨u, _, rfl⟩ := List.mem_map.mp hm
    simp [elemTag]

/-- C4 counterexample: a page consisting of one video element whose source
has the recognized `.mp4` extension contributes nothing — scanning collects
no media for it, the generated entry has no video child, and the part root
declares only the sitemap and image namespaces, with no video namespace. -/
theorem video_not_emitted_cex :
    scan_html_files "https://e.com/"
        [⟨"v.html", "t", .ok [⟨"video", [("src", "movie.mp4")]⟩]⟩]
      = .ok (1, [("https://e.com/v.html", ("t", []))])
    ∧ pathSuffix "movie.mp4" = ".mp4"
    ∧ (generate_sitemap_parts [("https://e.com/v.html", ("t", []))]
          "https://e.com/" 1000 "sitemap").docs
        = [XmlElem.mk "urlset" urlsetAttrs "" [mkUrlElem "https://e.com/v.html" "t" []]]
    ∧ ((urlsetAttrs.map Prod.fst).contains "xmlns:video") = false
    ∧ (elemChildren (mkUrlElem "https://e.com/v.html" "t" [])).filter
        (fun c => elemTag c == "video:video") = [] := by
  exact ⟨rfl, by decide, rfl, by decide, rfl⟩

/-- C4 as amended: video elements are ignored entirely — every part document
carries exactly the sitemap and image namespace declarations (no video
namespace), and every page entry is a `url` element whose children are only
`loc`, `lastmod`, `changefreq`, `priority` and `image:image` elements. -/
theorem parts_have_no_video_elements (page_data : PageData)
    (site_base_url pfx : String) (limit : Nat) :
    ∀ d ∈ (generate_sitemap_parts page_data site_base_url limit pfx).docs,
      elemAttrs d = urlsetAttrs
        ∧ ((elemAttrs d).map Prod.fst).contains "xmlns:video" = false
        ∧ ∀ e ∈ elemChildren d,
            elemTag e = "url"
              ∧ ∀ ch ∈ elemChildren e,
                  elemTag ch ∈
                    (["loc", "lastmod", "changefreq", "priority", "image:image"] : List String) := by
  intro d hd
  obtain ⟨plan, rfl⟩ := genPartsAux_docs_struct page_data limit
    (sitemapBaseUrl site_base_url) pfx (numParts page_data.length limit) 0 [] d hd
  refine ⟨rfl,
    (by decide : ((urlsetAttrs.map Prod.fst).contains "xmlns:video") = false), ?_⟩
  intro e he
  simp only [elemChildren] at he
  obtain ⟨x, _, rfl⟩ := List.mem_map.mp he
  exact ⟨rfl, entry_children_tags x.1 x.2.1 x.2.2⟩

/-- Witness for the amended C4 at the concrete one-page run of the
counterexample input. -/
theorem parts_have_no_video_elements_witness :
    ((elemAttrs (XmlElem.mk "urlset" urlsetAttrs ""
        [mkUrlElem "https://e.com/v.html" "t" []])).map Prod.fst).contains "xmlns:video" = false
      ∧ elemTag (mkUrlElem "https://e.com/v.html" "t" []) = "url" := by
  have hdocs : (generate_sitemap_parts [("https://e.com/v.html", ("t", []))]
      "https://e.com/" 1000 "sitemap").docs
      = [XmlElem.mk "urlset" urlsetAttrs "" [mkUrlElem "https://e.com/v.html" "t" []]] := rfl
  have h := parts_have_no_video_elements [("https://e.com/v.html", ("t", []))]
    "https://e.com/" "sitemap" 1000
    (XmlElem.mk "urlset" urlsetAttrs "" [mkUrlElem "https://e.com/v.html" "t" []])
    (by rw [hdocs]; exact List.mem_singleton_self _)
  exact ⟨h.2.1, (h.2.2 (mkUrlElem "https://e.com/v.html" "t" [])
    (List.mem_singleton_self _)).1⟩

theorem stripExact_eq_some (p : List Char) :
    ∀ (cs r : List Char), stripExact p cs = some r ↔ cs = p ++ r := by
  induction p with
  | nil =>
    intro cs r
    simp [stripExact]
  | cons a ps ih =>
    intro cs r
    cases cs with
    | nil => simp [stripExact]
    | cons c cs' =>
      by_cases hca : c = a
      · subst hca
        rw [stripExact, if_pos rfl]
        simp [ih]
      · rw [stripExact, if_neg hca]
        simp [hca]

theorem all_digits_takeWhile (l2 : List Char) :
    ∀ l1 : List Char, (∀ c ∈ l1, c.isDigit) →
      (l1 ++ l2).takeWhile Char.isDigit = l1 ++ l2.takeWhile Char.isDigit
        ∧ (l1 ++ l2).dropWhile Char.isDigit = l2.dropWhile Char.isDigit := by
  intro l1
  induction l1 with
  | nil => intro _; simp
  | cons a r ih =>
    intro h
    have ha : a.isDigit = true := h a (by simp)
    obtain ⟨ht, hd⟩ := ih (fun c hc => h c (by simp [hc]))
    constructor
    · simp only [List.cons_append, List.takeWhile_cons, ha, if_true]
      rw [ht]
    · simp only [List.cons_append, List.dropWhile_cons, ha, if_true]
      rw [hd]

theorem checkDigitsXml_iff (cs : List Char) :
    checkDigitsXml cs = true ↔
      ∃ ds : List Char, ds ≠ [] ∧ (∀ c ∈ ds, c.isDigit)
        ∧ cs = ds ++ ".xml".toList := by
  constructor
  · intro h
    rw [checkDigitsXml, Bool.and_eq_true, decide_eq_true_eq] at h
    obtain ⟨hlen, hdrop⟩ := h
    refine ⟨cs.takeWhile Char.isDigit, ?_, ?_, ?_⟩
    · intro hnil
      rw [hnil] at hlen
      simp at hlen
    · intro c hc
      exact List.mem_takeWhile_imp hc
    · have hbeq : cs.dropWhile Char.isDigit = ".xml".toList := eq_of_beq hdrop
      conv_lhs => rw [← List.takeWhile_append_dropWhile Char.isDigit cs]
      rw [hbeq]
  · rintro ⟨ds, hne, hdig, rfl⟩
    obtain ⟨ht, hd⟩ := all_digits_takeWhile ".xml".toList ds hdig
    rw [checkDigitsXml, Bool.and_eq_true, decide_eq_true_eq]
    constructor
    · rw [ht]
      have hx : (".xml".toList.takeWhile Char.isDigit) = [] := rfl
      rw [hx, List.append_nil]
      cases ds with
      | nil => exact absurd rfl hne
      | cons a r => simp
    · rw [hd]
      have hx : (".xml".toList.dropWhile Char.isDigit) = ".xml".toList := rfl
      rw [hx]
      simp

theorem matchesPartPattern_iff (pfx name : String) :
    matchesPartPattern pfx name = true ↔
      ∃ ds : List Char, ds ≠ [] ∧ (∀ c ∈ ds, c.isDigit)
        ∧ name.toList = pfx.toList ++ '-' :: (ds ++ ".xml".toList) := by
  rw [matchesPartPattern]
  rcases hstrip : stripExact (pfx.toList ++ ['-']) name.toList with _ | rest
  · constructor
    · intro h
      exact absurd h (by simp)
    · rintro ⟨ds, hne, hdig, heq⟩
      exfalso
      have h2 : stripExact (pfx.toList ++ ['-']) name.toList = some (ds ++ ".xml".toList) := by
        rw [stripExact_eq_some, heq]
        simp
      rw [hstrip] at h2
      exact Option.noConfusion h2
  · rw [checkDigitsXml_iff]
    constructor
    · rintro ⟨ds, hne, hdig, hrest⟩
      have hname : name.toList = (pfx.toList ++ ['-']) ++ rest :=
        (stripExact_eq_some _ _ _).mp hstrip
      refine ⟨ds, hne, hdig, ?_⟩
      rw [hname, hrest]
      simp
    · rintro ⟨ds, hne, hdig, heq⟩
      have h2 : stripExact (pfx.toList ++ ['-']) name.toList = some (ds ++ ".xml".toList) := by
        rw [stripExact_eq_some, heq]
        simp
      rw [hstrip] at h2
      have h3 : rest = ds ++ ".xml".toList := by
        injection h2
      exact ⟨ds, hne, hdig, h3⟩

theorem matches_imp_glob (pfx name : String)
    (h : matchesPartPattern pfx name = true) : globPartXml pfx name = true := by
  rw [matchesPartPattern] at h
  rw [globPartXml]
  rcases hstrip : stripExact (pfx.toList ++ ['-']) name.toList with _ | rest
  · rw [hstrip] at h
    exact absurd h (by simp)
  · rw [hstrip] at h
    rw [checkDigitsXml_iff] at h
    obtain ⟨ds, _, _, rfl⟩ := h
    exact List.isSuffixOf_iff_suffix.mpr (List.suffix_append ds _)

/-- C7: the cleanup loop attempts to delete exactly the directory entries
whose name is the prefix, a dash, a non-empty digit string, and `.xml` —
and is not a basename of the current run's part set. A name like
`<prefix>-style.xml` never qualifies, and the set of attempted deletions is
the same whatever the per-file deletion outcomes are: a failed unlink is
caught and the loop continues with the remaining files. -/
theorem cleanup_deletes_exactly_stale_numeric_parts
    (dirFiles : List String) (pfx : String) (part_files_current : List String)
    (ok1 ok2 : String → Bool) :
    (∀ name : String,
        name ∈ (cleanup_old_parts dirFiles pfx part_files_current ok1).1 ↔
          name ∈ dirFiles
            ∧ (∃ ds : List Char, ds ≠ [] ∧ (∀ c ∈ ds, c.isDigit)
                ∧ name.toList = pfx.toList ++ '-' :: (ds ++ ".xml".toList))
            ∧ name ∉ part_files_current.map pathName)
      ∧ (cleanup_old_parts dirFiles pfx part_files_current ok1).1 =
          (cleanup_old_parts dirFiles pfx part_files_current ok2).1
      ∧ (pfx ++ "-style.xml") ∉ (cleanup_old_parts dirFiles pfx part_files_current ok1).1 := by
  have hmem : ∀ name : String,
      name ∈ (cleanup_old_parts dirFiles pfx part_files_current ok1).1 ↔
        name ∈ dirFiles ∧ matchesPartPattern pfx name = true
          ∧ name ∉ part_files_current.map pathName := by
    intro name
    simp only [cleanup_old_parts, List.mem_filter, Bool.and_eq_true, Bool.not_eq_true']
    constructor
    · rintro ⟨⟨hdir, _⟩, hmatch, hcont⟩
      refine ⟨hdir, hmatch, ?_⟩
      simpa using hcont
    · rintro ⟨hdir, hmatch, hcont⟩
      exact ⟨⟨hdir, matches_imp_glob pfx name hmatch⟩, hmatch, by simpa using hcont⟩
  refine ⟨?_, rfl, ?_⟩
  · intro name
    rw [hmem name, matchesPartPattern_iff]
  · intro hin
    rw [hmem] at hin
    obtain ⟨_, hmatch, _⟩ := hin
    rw [matchesPartPattern_iff] at hmatch
    obtain ⟨ds, hne, hdig, heq⟩ := hmatch
    have htl : (pfx ++ "-style.xml").toList = pfx.toList ++ "-style.xml".toList := by
      simp [String.toList]
    rw [htl] at heq
    have h2 := List.append_cancel_left heq
    have hlit : ("-style.xml".toList : List Char) = '-' :: "style.xml".toList := rfl
    rw [hlit] at h2
    injection h2 with _ h3
    cases ds with
    | nil => exact hne rfl
    | cons a ds' =>
      have ha : a = 's' := by
        have hsty : ("style.xml".toList : List Char) = 's' :: "tyle.xml".toList := rfl
        rw [hsty] at h3
        injection h3 with h4 _
        exact h4.symm
      have hdig' := hdig a (by simp)
      rw [ha] at hdig'
      exact absurd hdig' (by decide)
